import Mathlib

/-!
Verification of the site-artifact synthesis pipeline in `scripts/netlify_fix.py`.

The script is shallowly embedded: the output tree is a finite collection of
relative file and directory paths (posix separators), every renderer becomes a
pure function from that data to the document content it writes, and the Python
driver becomes a state-passing function on a `World` record.  Python string
scanning primitives (`strip`, `lower`, `startswith`, `endswith`) are modelled
on the underlying character lists so that every definition evaluates inside
the kernel.
-/

namespace NetlifyFix

/-- Model of Python `str.startswith`. -/
def strStarts (s p : String) : Bool := p.data.isPrefixOf s.data

/-- Model of Python `str.endswith`. -/
def strEnds (s p : String) : Bool := p.data.isSuffixOf s.data

/-- Model of Python `str.lower` (ASCII case folding, as used on file names). -/
def lowerStr (s : String) : String := ⟨s.data.map Char.toLower⟩

/-- Model of Python `str.strip`: drop whitespace on both ends. -/
def stripStr (s : String) : String :=
  ⟨((s.data.dropWhile Char.isWhitespace).reverse.dropWhile Char.isWhitespace).reverse⟩

/-- A character accepted by the `[a-f0-9]` class of `INDEXNOW_KEY_RE` under `re.I`. -/
def isHexDigitCI (c : Char) : Bool :=
  ('a' ≤ c && c ≤ 'f') || ('A' ≤ c && c ≤ 'F') || ('0' ≤ c && c ≤ '9')

/-- `INDEXNOW_KEY_RE = re.compile(r"^[a-f0-9]\x7b32\x7d\.txt$", re.I)`:
32 hex characters followed by `.txt`, case-insensitively. -/
def indexnowKeyMatch (fn : String) : Bool :=
  let cs := fn.data
  cs.length == 36 && (cs.take 32).all isHexDigitCI &&
    ((cs.drop 32).map Char.toLower == ['.', 't', 'x', 't'])

/-- The built output tree: relative paths of all files and all directories
under the output root, with forward-slash separators. -/
structure Tree where
  files : List String
  dirs : List String
deriving DecidableEq

/-- All paths of the tree, files and directories alike. -/
def treePaths (t : Tree) : List String := t.files ++ t.dirs

/-- Model of `(out_dir / name).exists()`: the relative path is present in the
tree, be it a file or a directory. -/
def pathExists (t : Tree) (n : String) : Prop := n ∈ t.files ∨ n ∈ t.dirs

instance (t : Tree) (n : String) : Decidable (pathExists t n) := by
  unfold pathExists; infer_instance

/-- Kernel-computable decision procedure for the lexicographic order on
strings, routed through the underlying character lists. -/
instance (priority := 2000) strLeDecidable :
    DecidableRel (fun a b : String => a ≤ b) := fun a b =>
  decidable_of_iff (a.toList ≤ b.toList) String.le_iff_toList_le.symm

/-- `sorted(set(l))` in Python: deduplicate, then sort lexicographically. -/
def sortedSet (l : List String) : List String :=
  List.insertionSort (fun a b => a ≤ b) l.dedup

/-- The fixed allow-list probed by `_collect_internal_pages`. -/
def wellKnownNames : List String :=
  ["all.html", "about.html", "rss.xml", "sitemap.xml", "robots.txt", "backlink-feed.xml"]

/-- The candidate URLs accumulated into the `pages` set by
`_collect_internal_pages`, in program order (the set collapses duplicates). -/
def collectCandidates (t : Tree) (base : String) : List String :=
  (if pathExists t ("index.html") then [base ++ "/"] else [])
    ++ ((treePaths t).filter
          (fun p => strEnds p (".html") && !(p == "index.html"))).map
        (fun p => base ++ "/" ++ p)
    ++ (wellKnownNames.filter (fun n => decide (pathExists t n))).map
        (fun n => base ++ "/" ++ n)

/-- `_collect_internal_pages`: the deduplicated candidates in sorted order. -/
def collectInternalPages (t : Tree) (base : String) : List String :=
  sortedSet (collectCandidates t base)

/-- One `<url>` element of the sitemap. -/
structure UrlEntry where
  loc : String
  lastmod : String
deriving DecidableEq

/-- `_ensure_sitemap`: one entry per collected URL, all carrying the same
`lastmod`, namely `now_utc.date().isoformat()`. -/
def sitemapEntries (t : Tree) (base dateStr : String) : List UrlEntry :=
  (collectInternalPages t base).map (fun loc => ⟨loc, dateStr⟩)

/-- `_ensure_robots`: the fixed three-line policy plus trailing newline. -/
def robotsText (base : String) : String :=
  "User-agent: *\nAllow: /\nSitemap: " ++ base ++ "/sitemap.xml\n"

/-- The rewrite rule `_ensure_netlify_overrides` writes for a file name:
`"/fn /fn 200"`. -/
def ruleFor (fn : String) : String :=
  "/" ++ fn ++ " /" ++ fn ++ " 200"

/-- The wildcard rule for the daily-pages directory. -/
def dailyRule : String := "/d/* /d/:splat 200"

/-- The `must_files` list of `_ensure_netlify_overrides`, in program order. -/
def mustFiles : List String :=
  ["robots.txt", "sitemap.xml", "rss.xml", "backlink-feed.xml", "index.html",
    "all.html", "about.html"]

/-- `fn.lower().startswith("google") and fn.lower().endswith(".html")`. -/
def googleVerifMatch (fn : String) : Bool :=
  strStarts (lowerStr fn) ("google") && strEnds (lowerStr fn) (".html")

/-- The rule lines contributed by one top-level file name in the
verification/key scan (the two `if` statements of the loop body). -/
def verifRulesFor (fn : String) : List String :=
  (if googleVerifMatch fn then [ruleFor fn] else [])
    ++ (if indexnowKeyMatch fn then [ruleFor fn] else [])

/-- The rule lines of the whole verification/key scan, in iteration order. -/
def verifLines : List String → List String
  | [] => []
  | n :: ns => verifRulesFor n ++ verifLines ns

/-- `sorted([p.name for p in out_dir.iterdir() if p.is_file()])`: the sorted
top-level file names of the output tree. -/
def topNames (t : Tree) : List String :=
  sortedSet (t.files.filter (fun p => !(p.data.contains '/')))

/-- The `_redirects` lines emitted by `_ensure_netlify_overrides`: must-exist
rules in list order, then the daily wildcard, then the verification/key scan
over sorted top-level file names. -/
def redirectsLines (t : Tree) : List String :=
  ((mustFiles.filter (fun fn => decide (pathExists t fn))).map ruleFor)
    ++ (if pathExists t ("d") then [dailyRule] else [])
    ++ verifLines (topNames t)

/-- `_read_recent_urls` on one data row: `(row[0] or "").strip()`, kept only
when it starts with `http://` or `https://`. -/
def rowUrl (row : List String) : Option String :=
  match row with
  | [] => none
  | c :: _ =>
    let u := stripStr c
    if strStarts u ("http://") || strStarts u ("https://") then some u else none

/-- The URLs surviving the row filter of `_read_recent_urls`, skipping the
header row, in log order. -/
def filteredUrls (rows : List (List String)) : List String :=
  (rows.drop 1).filterMap rowUrl

/-- `_read_recent_urls`: empty when the log file is missing, otherwise the
filtered URLs, truncated via `urls[-limit:]` when they exceed `limit`. The
Python slice `urls[-limit:]` keeps the last `limit` elements for positive
`limit`, but at `limit = 0` it is `urls[0:]` and keeps the whole list. -/
def readRecentUrls (logExists : Bool) (rows : List (List String)) (limit : Nat) :
    List String :=
  if logExists then
    let urls := filteredUrls rows
    if urls.length > limit then
      if limit = 0 then urls else urls.drop (urls.length - limit)
    else urls
  else []

/-- A parsed JSON value, for the enrichment index `data/enriched.json`. -/
inductive JVal where
  | null : JVal
  | jbool : Bool → JVal
  | num : Int → JVal
  | str : String → JVal
  | arr : List JVal → JVal
  | obj : List (String × JVal) → JVal

/-- Python truthiness of a JSON value. -/
def pyTruthy : JVal → Bool
  | .null => false
  | .jbool b => b
  | .num n => !(n == 0)
  | .str s => !(s == "")
  | .arr xs => !xs.isEmpty
  | .obj fs => !fs.isEmpty

/-- Python `a or b` on JSON values. -/
def pyOr (a b : JVal) : JVal := if pyTruthy a then a else b

/-- Python `j.get(k)` with default `None`: succeeds only on a dict, anything
else raises `AttributeError`. -/
def pyGet (j : JVal) (k : String) : Except String JVal :=
  match j with
  | .obj fs => .ok ((fs.lookup k).getD JVal.null)
  | _ => .error ("AttributeError: get")

/-- Python `j.strip()`: succeeds only on a string. -/
def pyStrip (j : JVal) : Except String String :=
  match j with
  | .str s => .ok (stripStr s)
  | _ => .error ("AttributeError: strip")

/-- `_load_enriched`: `none` models a missing file, `some none` an unreadable
or unparsable one (swallowed by the `except` clause), `some (some j)` a
successful parse. The first two degrade to the empty dict. -/
def loadEnriched : Option (Option JVal) → JVal
  | some (some j) => j
  | _ => .obj []

/-- Line 125 of the script: `.get("items", \x7b\x7d)` when the loaded value is a
dict, else the empty dict. -/
def itemsOf (load : JVal) : JVal :=
  match load with
  | .obj fs => (fs.lookup ("items")).getD (JVal.obj [])
  | _ => .obj []

/-- Per-URL metadata: `enriched.get(u, \x7b\x7d) if isinstance(enriched, dict)
else \x7b\x7d`. -/
def metaFor (enriched : JVal) (u : String) : JVal :=
  match enriched with
  | .obj fs => (fs.lookup u).getD (JVal.obj [])
  | _ => .obj []

/-- `(meta.get("title") or "").strip() or u`. -/
def titleOf (meta : JVal) (u : String) : Except String String :=
  match pyGet meta ("title") with
  | .error e => .error e
  | .ok t =>
    match pyStrip (pyOr t (JVal.str (""))) with
    | .error e => .error e
    | .ok s => .ok (if s = "" then u else s)

/-- `(meta.get("summary") or meta.get("description") or "").strip() or u`. -/
def descOf (meta : JVal) (u : String) : Except String String :=
  match pyGet meta ("summary") with
  | .error e => .error e
  | .ok s0 =>
    match pyGet meta ("description") with
    | .error e => .error e
    | .ok d0 =>
      match pyStrip (pyOr s0 (pyOr d0 (JVal.str ("")))) with
      | .error e => .error e
      | .ok s => .ok (if s = "" then u else s)

/-- One `<item>` element of the RSS feed. -/
structure RssItem where
  title : String
  link : String
  guid : String
  description : String
  pubDate : String
deriving DecidableEq

/-- The item built for one URL in the `_ensure_rss` loop. -/
def rssItemFor (enriched : JVal) (pub : String) (u : String) :
    Except String RssItem :=
  match titleOf (metaFor enriched u) u with
  | .error e => .error e
  | .ok t =>
    match descOf (metaFor enriched u) u with
    | .error e => .error e
    | .ok d => .ok ⟨t, u, u, d, pub⟩

/-- The `_ensure_rss` item loop: an uncaught exception aborts the whole run. -/
def buildItems (enriched : JVal) (pub : String) :
    List String → Except String (List RssItem)
  | [] => .ok []
  | u :: us =>
    match rssItemFor enriched pub u with
    | .error e => .error e
    | .ok it =>
      match buildItems enriched pub us with
      | .error e => .error e
      | .ok its => .ok (it :: its)

/-- `_ensure_rss`: items for `reversed(urls)` (latest first), every item
stamped with the run timestamp `pub`. -/
def ensureRssItems (load : JVal) (urls : List String) (pub : String) :
    Except String (List RssItem) :=
  buildItems (itemsOf load) pub urls.reverse

/-- The read-only inputs of one run that live outside the output tree:
base URL, `docs/` directory, `data/daily.csv` and `data/enriched.json`. -/
structure Env where
  base : String
  docsExists : Bool
  docsFiles : List String
  logExists : Bool
  logRows : List (List String)
  enrichedState : Option (Option JVal)

/-- The file names `_copy_root_tokens` places at the output root:
`docs/google*.html` (case-sensitive glob) and `docs/*.txt` matching
`INDEXNOW_KEY_RE`. `_copy_if_missing` never creates a second file of the
same name, so at the level of name sets this is a plain union. -/
def copiedTokens (docsExists : Bool) (docsFiles : List String) : List String :=
  if docsExists then
    docsFiles.filter (fun n =>
      (strStarts n ("google") && strEnds n (".html"))
        || (strEnds n (".txt") && indexnowKeyMatch n))
  else []

/-- The documents produced by one (successful) run, together with the output
tree it leaves behind. -/
structure RunOut where
  tree : Tree
  robots : String
  rssItems : Except String (List RssItem)
  sitemap : List UrlEntry

/-- The pipeline of `main` after argument validation, at the level of file
names and document contents: token copy, robots write, rss write, sitemap
collection and write (the collector runs before `sitemap.xml` itself is
written but after `robots.txt` and `rss.xml` are), then the override files. -/
def pipelineRun (env : Env) (t : Tree) (dateStr pubStr : String) : RunOut :=
  let t1 : Tree := ⟨t.files ++ copiedTokens env.docsExists env.docsFiles, t.dirs⟩
  let t2 : Tree := ⟨"robots.txt" :: t1.files, t1.dirs⟩
  let rss := ensureRssItems (loadEnriched env.enrichedState)
    (readRecentUrls env.logExists env.logRows 50) pubStr
  let t3 : Tree := ⟨"rss.xml" :: t2.files, t2.dirs⟩
  let sm := sitemapEntries t3 env.base dateStr
  let t4 : Tree := ⟨"sitemap.xml" :: t3.files, t3.dirs⟩
  let t5 : Tree := ⟨"_redirects" :: "_headers" :: t4.files, t4.dirs⟩
  ⟨t5, robotsText env.base, rss, sm⟩

/-- `_norm_base_url`: strip whitespace; if empty keep it, else drop every
trailing slash. -/
def normBaseUrl (u : String) : String :=
  let s := stripStr u
  if s = "" then s else ⟨(s.data.reverse.dropWhile (fun c => c = '/')).reverse⟩

/-- The whole mutable state `main` can observe and change: the output tree
(whose existence is the `out_dir.exists()` probe) plus the read-only inputs. -/
structure World where
  out : Tree
  outExists : Bool
  docsExists : Bool
  docsFiles : List String
  logExists : Bool
  logRows : List (List String)
  enrichedState : Option (Option JVal)

/-- The `Env` corresponding to a `World` and a normalized base URL. -/
def envOf (w : World) (base : String) : Env :=
  ⟨base, w.docsExists, w.docsFiles, w.logExists, w.logRows, w.enrichedState⟩

/-- `main`: validate `sys.argv`, the output directory and the base URL, then
run the pipeline. The result pairs the final world with `.ok ()` for exit
code 0 or `.error msg` for a fatal `SystemExit`/uncaught exception (exit
code 1). An enrichment crash aborts after the tokens and `robots.txt` are
already on disk but before `rss.xml` is written. -/
def mainRun (argv : List String) (w : World) (dateStr pubStr : String) :
    World × Except String Unit :=
  if argv.length < 3 then
    (w, .error ("Usage: python scripts/netlify_fix.py <OUT_DIR> <BASE_URL>"))
  else
    let base := normBaseUrl (argv.getD 2 (""))
    if !w.outExists then (w, .error ("OUT_DIR not found"))
    else if !(strStarts base ("http")) then
      (w, .error ("BASE_URL must start with http(s)"))
    else
      let rss := ensureRssItems (loadEnriched w.enrichedState)
        (readRecentUrls w.logExists w.logRows 50) pubStr
      match rss with
      | .error e =>
        (⟨⟨"robots.txt" :: (w.out.files ++ copiedTokens w.docsExists w.docsFiles),
            w.out.dirs⟩,
          w.outExists, w.docsExists, w.docsFiles, w.logExists, w.logRows,
          w.enrichedState⟩, .error e)
      | .ok _ =>
        (⟨(pipelineRun (envOf w base) w.out dateStr pubStr).tree,
          w.outExists, w.docsExists, w.docsFiles, w.logExists, w.logRows,
          w.enrichedState⟩, .ok ())

/-! ## Helper lemmas -/

theorem strAppend_left_cancel {a b c : String} (h : a ++ b = a ++ c) : b = c := by
  have hd := congrArg String.data h
  simp only [String.data_append] at hd
  exact String.ext (List.append_cancel_left hd)

theorem sortedSet_sorted (l : List String) :
    List.Sorted (fun a b : String => a ≤ b) (sortedSet l) :=
  List.sorted_insertionSort _ _

theorem sortedSet_nodup (l : List String) : (sortedSet l).Nodup :=
  (List.perm_insertionSort _ _).nodup_iff.mpr (List.nodup_dedup l)

theorem mem_sortedSet {a : String} {l : List String} :
    a ∈ sortedSet l ↔ a ∈ l := by
  unfold sortedSet
  rw [List.mem_insertionSort, List.mem_dedup]

theorem sortedSet_ext {l₁ l₂ : List String} (h : ∀ x, x ∈ l₁ ↔ x ∈ l₂) :
    sortedSet l₁ = sortedSet l₂ := by
  refine List.eq_of_perm_of_sorted ?_ (sortedSet_sorted l₁) (sortedSet_sorted l₂)
  refine (List.perm_ext_iff_of_nodup (sortedSet_nodup l₁) (sortedSet_nodup l₂)).mpr ?_
  intro a
  rw [mem_sortedSet, mem_sortedSet]
  exact h a

theorem ruleFor_inj {a b : String} (h : ruleFor a = ruleFor b) : a = b := by
  have hd := congrArg String.data h
  simp only [ruleFor, String.data_append] at hd
  simp only [List.append_assoc, List.cons_append, List.nil_append,
    List.cons.injEq, true_and] at hd
  have hlen := congrArg List.length hd
  simp only [List.length_append, List.length_cons] at hlen
  exact String.ext ((List.append_inj hd (by omega)).1)

theorem mem_verifRulesFor {r fn : String} (h : r ∈ verifRulesFor fn) :
    r = ruleFor fn ∧ (googleVerifMatch fn || indexnowKeyMatch fn) = true := by
  unfold verifRulesFor at h
  rcases List.mem_append.mp h with h | h <;> split at h <;> simp_all

theorem mem_verifLines {r : String} {ns : List String} (h : r ∈ verifLines ns) :
    ∃ n ∈ ns, r = ruleFor n ∧ (googleVerifMatch n || indexnowKeyMatch n) = true := by
  induction ns with
  | nil => simp only [verifLines] at h; exact absurd h (List.not_mem_nil r)
  | cons n ns ih =>
    simp only [verifLines] at h
    rcases List.mem_append.mp h with h | h
    · exact ⟨n, List.mem_cons_self n ns, (mem_verifRulesFor h).1,
        (mem_verifRulesFor h).2⟩
    · obtain ⟨m, hm, hr, hmatch⟩ := ih h
      exact ⟨m, List.mem_cons_of_mem n hm, hr, hmatch⟩

theorem count_verifLines {r tgt : String} (h1 : (verifRulesFor tgt).count r = 1)
    (h0 : ∀ a, a ≠ tgt → (verifRulesFor a).count r = 0) (ns : List String) :
    (verifLines ns).count r = ns.count tgt := by
  induction ns with
  | nil => simp [verifLines]
  | cons n ns ih =>
    simp only [verifLines, List.count_append, ih, List.count_cons]
    by_cases hn : n = tgt
    · subst hn; rw [h1]; simp [Nat.add_comm]
    · rw [h0 n hn]; simp [hn]

theorem sitemap_locs (t : Tree) (base d : String) :
    (sitemapEntries t base d).map UrlEntry.loc = collectInternalPages t base := by
  unfold sitemapEntries
  rw [List.map_map]
  exact List.map_id _

theorem mem_collect_of_html {t : Tree} {base p : String} (hp : p ∈ treePaths t)
    (hh : strEnds p (".html") = true) (hi : p ≠ "index.html") :
    base ++ "/" ++ p ∈ collectInternalPages t base := by
  unfold collectInternalPages
  rw [mem_sortedSet]
  unfold collectCandidates
  refine List.mem_append.mpr (Or.inl (List.mem_append.mpr (Or.inr ?_)))
  refine List.mem_map.mpr ⟨p, List.mem_filter.mpr ⟨hp, ?_⟩, rfl⟩
  simp [hh, hi]

theorem strAppend_assoc (a b c : String) : a ++ b ++ c = a ++ (b ++ c) := by
  apply String.ext
  simp [String.data_append]

theorem rowUrl_eq_some {row : List String} {u : String} (h : rowUrl row = some u) :
    row ≠ [] ∧ u = stripStr (row.headD ("")) ∧
      (strStarts u ("http://") || strStarts u ("https://")) = true := by
  match row with
  | [] => exact absurd h (by simp [rowUrl])
  | c :: cs =>
    simp only [rowUrl] at h
    split at h
    · rename_i hcond
      injection h with h
      subst h
      exact ⟨by simp, rfl, hcond⟩
    · exact absurd h (by simp)

/-! ## Claims -/

/-- Claim C1: for every output tree, base URL and run date, the sitemap holds
exactly one entry per canonical URL the collector reports, with no duplicates,
in lexicographically sorted order, and every entry's lastmod equals the run's
UTC calendar date (the same value for all entries). -/
theorem sitemap_one_entry_per_collected_url (t : Tree) (base d : String) :
    (sitemapEntries t base d).map UrlEntry.loc = collectInternalPages t base
    ∧ ((sitemapEntries t base d).map UrlEntry.loc).Nodup
    ∧ List.Sorted (fun a b : String => a ≤ b)
        ((sitemapEntries t base d).map UrlEntry.loc)
    ∧ ∀ e ∈ sitemapEntries t base d, e.lastmod = d := by
  refine ⟨sitemap_locs t base d, ?_, ?_, ?_⟩
  · rw [sitemap_locs]; exact sortedSet_nodup _
  · rw [sitemap_locs]; exact sortedSet_sorted _
  · intro e he
    unfold sitemapEntries at he
    obtain ⟨loc, _, rfl⟩ := List.mem_map.mp he
    rfl

theorem sitemap_one_entry_per_collected_url_witness :
    (sitemapEntries ⟨["index.html", "d/x.html"], ["d"]⟩ "https://e" "2026-10-12").map
        UrlEntry.loc
      = collectInternalPages ⟨["index.html", "d/x.html"], ["d"]⟩ "https://e"
    ∧ collectInternalPages ⟨["index.html", "d/x.html"], ["d"]⟩ "https://e"
      = ["https://e/", "https://e/d/x.html"] :=
  ⟨(sitemap_one_entry_per_collected_url ⟨["index.html", "d/x.html"], ["d"]⟩
      "https://e" "2026-10-12").1, by decide⟩

/-- Claim C3 counterexample: at `limit = 0` the Python slice `urls[-0:]` keeps
every entry, so with one logged URL the reader returns one entry, not at most
`limit = 0` of them. -/
theorem read_recent_limit_zero_counterexample :
    readRecentUrls true [["url"], ["https://a"]] 0 = ["https://a"]
    ∧ ¬ ((readRecentUrls true [["url"], ["https://a"]] 0).length ≤ 0) :=
  ⟨rfl, by decide⟩

/-- Claim C3 (amended): for every positive `limit` the recent-items reader
returns at most `limit` entries, each the whitespace-trimmed first column of a
data row beginning with http:// or https://; when more such values exist,
exactly the most recent `limit` are kept in oldest-to-newest order; a missing
log yields the empty list; at `limit = 0` the slice `urls[-0:]` keeps the
whole list, so every filtered entry is returned. -/
theorem read_recent_urls_window (rows : List (List String)) (limit : Nat) :
    (0 < limit → (readRecentUrls true rows limit).length ≤ limit)
    ∧ readRecentUrls false rows limit = []
    ∧ readRecentUrls true rows limit <:+ filteredUrls rows
    ∧ ((filteredUrls rows).length > limit → 0 < limit →
        readRecentUrls true rows limit
          = (filteredUrls rows).drop ((filteredUrls rows).length - limit))
    ∧ readRecentUrls true rows 0 = filteredUrls rows
    ∧ ∀ u ∈ readRecentUrls true rows limit, ∃ row ∈ rows.drop 1,
        row ≠ [] ∧ u = stripStr (row.headD (""))
        ∧ (strStarts u ("http://") || strStarts u ("https://")) = true := by
  have hval : readRecentUrls true rows limit
      = if (filteredUrls rows).length > limit then
          (if limit = 0 then filteredUrls rows
           else (filteredUrls rows).drop ((filteredUrls rows).length - limit))
        else filteredUrls rows := by
    simp [readRecentUrls]
  have hzero : readRecentUrls true rows 0 = filteredUrls rows := by
    unfold readRecentUrls
    simp
  refine ⟨?_, by simp [readRecentUrls], ?_, ?_, hzero, ?_⟩
  · intro hpos
    rw [hval]
    split
    · rw [if_neg (by omega : ¬ limit = 0), List.length_drop]
      omega
    · rename_i hle
      omega
  · rw [hval]
    split
    · split
      · exact List.suffix_refl _
      · exact List.drop_suffix _ _
    · exact List.suffix_refl _
  · intro hgt hpos
    rw [hval, if_pos hgt, if_neg (by omega : ¬ limit = 0)]
  · intro u hu
    have humem : u ∈ filteredUrls rows := by
      rw [hval] at hu
      split at hu
      · split at hu
        · exact hu
        · exact (List.drop_suffix _ _).subset hu
      · exact hu
    obtain ⟨row, hrow, hsome⟩ := List.mem_filterMap.mp humem
    obtain ⟨hne, hu, hstart⟩ := rowUrl_eq_some hsome
    exact ⟨row, hrow, hne, hu, hstart⟩

theorem read_recent_urls_window_witness :
    (filteredUrls [["url"], [" https://a "], ["https://b"]]).length > 1
    ∧ 0 < 1
    ∧ readRecentUrls true [["url"], [" https://a "], ["https://b"]] 1
      = (filteredUrls [["url"], [" https://a "], ["https://b"]]).drop
          ((filteredUrls [["url"], [" https://a "], ["https://b"]]).length - 1) :=
  ⟨by decide, by decide,
    (read_recent_urls_window [["url"], [" https://a "], ["https://b"]] 1).2.2.2.1
      (by decide) (by decide)⟩

/-- Claim C6: when index.html exists at the output root, the collector (and
hence the sitemap) includes the base URL with a trailing slash, and the root
index.html is not additionally listed as base_url/index.html. -/
theorem root_index_collapses_to_base (t : Tree) (base d : String)
    (h : pathExists t ("index.html")) :
    (base ++ "/") ∈ collectInternalPages t base
    ∧ (base ++ "/index.html") ∉ collectInternalPages t base
    ∧ (base ++ "/") ∈ (sitemapEntries t base d).map UrlEntry.loc := by
  have hroot : (base ++ "/") ∈ collectInternalPages t base := by
    unfold collectInternalPages
    rw [mem_sortedSet]
    unfold collectCandidates
    refine List.mem_append.mpr (Or.inl (List.mem_append.mpr (Or.inl ?_)))
    rw [if_pos h]
    exact List.mem_singleton.mpr rfl
  refine ⟨hroot, ?_, by rw [sitemap_locs]; exact hroot⟩
  intro hmem
  unfold collectInternalPages at hmem
  rw [mem_sortedSet] at hmem
  unfold collectCandidates at hmem
  have hcat : ("/" : String) ++ "index.html" = "/index.html" := by decide
  have hsplit : base ++ "/index.html" = base ++ "/" ++ "index.html" := by
    rw [strAppend_assoc, hcat]
  rcases List.mem_append.mp hmem with hm | hm
  · rcases List.mem_append.mp hm with hm | hm
    · rcases (by split at hm <;> simp_all :
          base ++ "/index.html" = base ++ "/") with heq
      have := strAppend_left_cancel heq
      exact absurd this (by decide)
    · obtain ⟨p, hpf, hpe⟩ := List.mem_map.mp hm
      have hp := List.mem_filter.mp hpf
      have : p = "index.html" :=
        strAppend_left_cancel (a := base ++ "/") (hpe.trans hsplit)
      subst this
      simp at hp
  · obtain ⟨p, hpf, hpe⟩ := List.mem_map.mp hm
    have hp := List.mem_filter.mp hpf
    have : p = "index.html" :=
      strAppend_left_cancel (a := base ++ "/") (hpe.trans hsplit)
    subst this
    exact absurd hp.1 (by decide)

theorem root_index_collapses_to_base_witness :
    pathExists (⟨["index.html"], []⟩ : Tree) ("index.html")
    ∧ ("https://e" ++ "/") ∈ collectInternalPages ⟨["index.html"], []⟩ "https://e"
    ∧ ("https://e" ++ "/index.html")
        ∉ collectInternalPages ⟨["index.html"], []⟩ "https://e" :=
  ⟨by decide,
    (root_index_collapses_to_base ⟨["index.html"], []⟩ "https://e" "D" (by decide)).1,
    (root_index_collapses_to_base ⟨["index.html"], []⟩ "https://e" "D" (by decide)).2.1⟩

theorem mustFiles_no_verif :
    ∀ x ∈ mustFiles, (googleVerifMatch x || indexnowKeyMatch x) = false := by
  decide

theorem mustFiles_ne_daily : ∀ x ∈ mustFiles, ruleFor x ≠ dailyRule := by
  decide

/-- Claim C2: a must-list rewrite rule is emitted iff that file exists in the
output tree after rendering, and the rules come in must-list order, then the
daily-directory wildcard, then verification/key rules over the
lexicographically sorted top-level file names. -/
theorem overrides_rule_iff_exists (t : Tree) :
    (∀ fn ∈ mustFiles, (ruleFor fn ∈ redirectsLines t ↔ pathExists t fn))
    ∧ redirectsLines t
      = ((mustFiles.filter (fun fn => decide (pathExists t fn))).map ruleFor)
        ++ (if pathExists t ("d") then [dailyRule] else [])
        ++ verifLines (topNames t)
    ∧ List.Sorted (fun a b : String => a ≤ b) (topNames t) := by
  refine ⟨?_, rfl, sortedSet_sorted _⟩
  intro fn hfn
  constructor
  · intro hr
    unfold redirectsLines at hr
    rcases List.mem_append.mp hr with hm | hm
    · rcases List.mem_append.mp hm with hm | hm
      · obtain ⟨x, hxf, hxe⟩ := List.mem_map.mp hm
        rw [ruleFor_inj hxe] at hxf
        exact of_decide_eq_true (List.mem_filter.mp hxf).2
      · exfalso
        split at hm
        · exact mustFiles_ne_daily fn hfn (List.mem_singleton.mp hm)
        · exact List.not_mem_nil _ hm
    · exfalso
      obtain ⟨n, _, hr', hmatch⟩ := mem_verifLines hm
      rw [ruleFor_inj hr'.symm] at hmatch
      rw [mustFiles_no_verif fn hfn] at hmatch
      exact Bool.false_ne_true hmatch
  · intro hex
    unfold redirectsLines
    refine List.mem_append.mpr (Or.inl (List.mem_append.mpr (Or.inl ?_)))
    exact List.mem_map.mpr
      ⟨fn, List.mem_filter.mpr ⟨hfn, decide_eq_true hex⟩, rfl⟩

theorem overrides_rule_iff_exists_witness :
    pathExists (⟨["robots.txt"], []⟩ : Tree) ("robots.txt")
    ∧ ruleFor ("robots.txt") ∈ redirectsLines ⟨["robots.txt"], []⟩ :=
  ⟨by decide,
    ((overrides_rule_iff_exists ⟨["robots.txt"], []⟩).1 ("robots.txt")
      (by decide)).mpr (by decide)⟩

/-- Claim C7: a top-level file named by 32 lowercase hex characters plus .txt
yields exactly one self-mapping rewrite rule, while notakey.txt yields no
rule at all. -/
theorem indexnow_key_rule_exactly_once (t : Tree) :
    (("a1b2c3d4e5f6a7b8c9d0e1f2a3b4c5d6.txt" ∈ t.files) →
      (redirectsLines t).count
        (ruleFor ("a1b2c3d4e5f6a7b8c9d0e1f2a3b4c5d6.txt")) = 1)
    ∧ ruleFor ("notakey.txt") ∉ redirectsLines t := by
  constructor
  · intro hk
    unfold redirectsLines
    rw [List.count_append, List.count_append]
    have hmust : (List.count (ruleFor ("a1b2c3d4e5f6a7b8c9d0e1f2a3b4c5d6.txt"))
        ((mustFiles.filter (fun fn => decide (pathExists t fn))).map ruleFor)) = 0 := by
      rw [List.count_eq_zero]
      intro hm
      obtain ⟨x, hxf, hxe⟩ := List.mem_map.mp hm
      rw [ruleFor_inj hxe] at hxf
      exact absurd (List.mem_filter.mp hxf).1 (by decide)
    have hdaily : (List.count (ruleFor ("a1b2c3d4e5f6a7b8c9d0e1f2a3b4c5d6.txt"))
        (if pathExists t ("d") then [dailyRule] else [])) = 0 := by
      split
      · rw [List.count_eq_zero]
        intro hm
        have := List.mem_singleton.mp hm
        exact absurd this (by decide)
      · rfl
    have hverif : (List.count (ruleFor ("a1b2c3d4e5f6a7b8c9d0e1f2a3b4c5d6.txt"))
        (verifLines (topNames t)))
        = (topNames t).count ("a1b2c3d4e5f6a7b8c9d0e1f2a3b4c5d6.txt") := by
      refine count_verifLines (by decide) ?_ (topNames t)
      intro a ha
      rw [List.count_eq_zero]
      intro hm
      obtain ⟨hr, _⟩ := mem_verifRulesFor hm
      exact ha (ruleFor_inj hr.symm)
    have hmem : ("a1b2c3d4e5f6a7b8c9d0e1f2a3b4c5d6.txt") ∈ topNames t := by
      unfold topNames
      rw [mem_sortedSet]
      exact List.mem_filter.mpr ⟨hk, by decide⟩
    have hnd : (topNames t).Nodup := by
      unfold topNames; exact sortedSet_nodup _
    rw [hmust, hdaily, hverif, List.count_eq_one_of_mem hnd hmem]
  · intro hr
    unfold redirectsLines at hr
    rcases List.mem_append.mp hr with hm | hm
    · rcases List.mem_append.mp hm with hm | hm
      · obtain ⟨x, hxf, hxe⟩ := List.mem_map.mp hm
        rw [ruleFor_inj hxe] at hxf
        exact absurd (List.mem_filter.mp hxf).1 (by decide)
      · split at hm
        · exact absurd (List.mem_singleton.mp hm) (by decide)
        · exact List.not_mem_nil _ hm
    · obtain ⟨n, _, hr', hmatch⟩ := mem_verifLines hm
      rw [ruleFor_inj hr'.symm] at hmatch
      exact absurd hmatch (by decide)

theorem indexnow_key_rule_exactly_once_witness :
    ("a1b2c3d4e5f6a7b8c9d0e1f2a3b4c5d6.txt"
        ∈ (⟨["a1b2c3d4e5f6a7b8c9d0e1f2a3b4c5d6.txt", "notakey.txt"], []⟩ : Tree).files)
    ∧ (redirectsLines ⟨["a1b2c3d4e5f6a7b8c9d0e1f2a3b4c5d6.txt", "notakey.txt"], []⟩).count
        (ruleFor ("a1b2c3d4e5f6a7b8c9d0e1f2a3b4c5d6.txt")) = 1 :=
  ⟨by decide,
    (indexnow_key_rule_exactly_once
      ⟨["a1b2c3d4e5f6a7b8c9d0e1f2a3b4c5d6.txt", "notakey.txt"], []⟩).1 (by decide)⟩

theorem rssItemFor_fields {e : JVal} {pub u : String} {it : RssItem}
    (h : rssItemFor e pub u = .ok it) :
    it.link = u ∧ it.guid = u ∧ it.pubDate = pub := by
  unfold rssItemFor at h
  split at h
  · exact Except.noConfusion h
  · split at h
    · exact Except.noConfusion h
    · injection h with h
      subst h
      exact ⟨rfl, rfl, rfl⟩

theorem buildItems_links {e : JVal} {pub : String} {l : List String}
    {items : List RssItem} (h : buildItems e pub l = .ok items) :
    items.map RssItem.link = l := by
  induction l generalizing items with
  | nil =>
    injection h with h
    subst h
    rfl
  | cons u us ih =>
    unfold buildItems at h
    split at h
    · exact Except.noConfusion h
    · rename_i it0 hit0
      split at h
      · exact Except.noConfusion h
      · rename_i its hits
        injection h with h
        subst h
        simp only [List.map_cons, ih hits, (rssItemFor_fields hit0).1]

theorem buildItems_mem {e : JVal} {pub : String} {l : List String}
    {items : List RssItem} (h : buildItems e pub l = .ok items) :
    ∀ it ∈ items, ∃ u ∈ l, rssItemFor e pub u = .ok it := by
  induction l generalizing items with
  | nil =>
    injection h with h
    subst h
    intro it hit
    exact absurd hit (List.not_mem_nil it)
  | cons u us ih =>
    unfold buildItems at h
    split at h
    · exact Except.noConfusion h
    · rename_i it0 hit0
      split at h
      · exact Except.noConfusion h
      · rename_i its hits
        injection h with h
        subst h
        intro it hit
        rcases List.mem_cons.mp hit with rfl | hmem
        · exact ⟨u, List.mem_cons_self u us, hit0⟩
        · obtain ⟨v, hv, hvr⟩ := ih hits it hmem
          exact ⟨v, List.mem_cons_of_mem u hv, hvr⟩

theorem rssItemFor_empty_meta (pub : String) {e : JVal} {u : String}
    (h : metaFor e u = JVal.obj []) :
    rssItemFor e pub u = .ok ⟨u, u, u, u, pub⟩ := by
  unfold rssItemFor titleOf descOf
  rw [h]
  rfl

theorem buildItems_all_empty (pub : String) {e : JVal} {l : List String}
    (h : ∀ u ∈ l, metaFor e u = JVal.obj []) :
    buildItems e pub l = .ok (l.map (fun u => ⟨u, u, u, u, pub⟩)) := by
  induction l with
  | nil => rfl
  | cons u us ih =>
    unfold buildItems
    rw [rssItemFor_empty_meta pub (h u (List.mem_cons_self u us)),
      ih (fun v hv => h v (List.mem_cons_of_mem u hv))]
    rfl

/-- Claim C4: feed items appear in strictly reverse log order (newest logged
URL first), with the enrichment title when present and the URL otherwise; in
particular, for the log a, b, c with an enrichment title only for b, the
items are c (title c), b (title "B title"), a (title a). -/
theorem rss_items_reverse_log_order :
    (∀ (load : JVal) (urls : List String) (pub : String) (items : List RssItem),
        ensureRssItems load urls pub = .ok items →
          items.map RssItem.link = urls.reverse
          ∧ ∀ it ∈ items, metaFor (itemsOf load) it.link = JVal.obj [] →
              it.title = it.link ∧ it.description = it.link)
    ∧ ensureRssItems
        (JVal.obj [("items", JVal.obj [("https://x/b",
            JVal.obj [("title", JVal.str ("B title"))])])])
        ["https://x/a", "https://x/b", "https://x/c"] ("PUB")
      = .ok [⟨"https://x/c", "https://x/c", "https://x/c", "https://x/c", "PUB"⟩,
          ⟨"B title", "https://x/b", "https://x/b", "https://x/b", "PUB"⟩,
          ⟨"https://x/a", "https://x/a", "https://x/a", "https://x/a", "PUB"⟩] := by
  constructor
  · intro load urls pub items h
    refine ⟨buildItems_links h, ?_⟩
    intro it hit hmeta
    obtain ⟨u, _, hur⟩ := buildItems_mem h it hit
    have hlink : it.link = u := (rssItemFor_fields hur).1
    rw [hlink] at hmeta
    rw [rssItemFor_empty_meta pub hmeta] at hur
    injection hur with hur
    subst hur
    exact ⟨rfl, rfl⟩
  · rfl

theorem rss_items_reverse_log_order_witness :
    ([(⟨"https://x/b", "https://x/b", "https://x/b", "https://x/b", "PUB"⟩ : RssItem),
        ⟨"https://x/a", "https://x/a", "https://x/a", "https://x/a", "PUB"⟩].map
          RssItem.link)
      = ["https://x/a", "https://x/b"].reverse :=
  (rss_items_reverse_log_order.1 (JVal.obj []) ["https://x/a", "https://x/b"]
    ("PUB") _ rfl).1

/-- Claim C8 counterexample: an enrichment index that parses to JSON but maps
a logged URL to a non-object value makes the feed renderer raise an uncaught
exception, so such a malformed index does fail the run. -/
theorem malformed_enrichment_crashes :
    ensureRssItems
        (JVal.obj [("items", JVal.obj [("https://x/a", JVal.num 42)])])
        ["https://x/a"] ("PUB")
      = .error ("AttributeError: get")
    ∧ (mainRun ["prog", "out", "https://e"]
        ⟨⟨[], []⟩, true, false, [], true, [["url"], ["https://x/a"]],
          some (some (JVal.obj [("items",
            JVal.obj [("https://x/a", JVal.num 42)])]))⟩
        ("D") ("P")).2
      = .error ("AttributeError: get") :=
  ⟨rfl, rfl⟩

/-- Claim C8 (amended): a missing, unreadable or unparsable enrichment index
never fails the run: every feed item falls back to its URL as both title and
description, and with otherwise valid arguments the run exits successfully;
an index that parses to JSON with a non-object per-URL entry, however, can
abort the run. -/
theorem missing_enrichment_graceful (st : Option (Option JVal))
    (urls : List String) (pub : String) (h : st = none ∨ st = some none) :
    ensureRssItems (loadEnriched st) urls pub
      = .ok (urls.reverse.map (fun u => ⟨u, u, u, u, pub⟩))
    ∧ ∀ (argv : List String) (w : World) (d : String),
        3 ≤ argv.length → w.outExists = true →
        strStarts (normBaseUrl (argv.getD 2 (""))) ("http") = true →
        w.enrichedState = st →
        (mainRun argv w d pub).2 = .ok () := by
  have hload : loadEnriched st = JVal.obj [] := by
    rcases h with rfl | rfl <;> rfl
  have hok : ∀ us : List String,
      ensureRssItems (loadEnriched st) us pub
        = .ok (us.reverse.map (fun u => ⟨u, u, u, u, pub⟩)) := by
    intro us
    unfold ensureRssItems
    rw [hload]
    exact buildItems_all_empty pub (fun u _ => rfl)
  refine ⟨hok urls, ?_⟩
  intro argv w d h3 hout hbase hst
  have hrss := hok (readRecentUrls w.logExists w.logRows 50)
  have hb2 : strStarts (normBaseUrl (argv[2]?.getD (""))) ("http") = true := by
    simpa using hbase
  simp [mainRun, Nat.not_lt.mpr h3, hout, hst, hrss, hb2]

theorem missing_enrichment_graceful_witness :
    ((none : Option (Option JVal)) = none
        ∨ (none : Option (Option JVal)) = some none)
    ∧ ensureRssItems (loadEnriched none) ["https://x/a"] ("PUB")
      = .ok [⟨"https://x/a", "https://x/a", "https://x/a", "https://x/a", "PUB"⟩] :=
  ⟨Or.inl rfl,
    (missing_enrichment_graceful none ["https://x/a"] ("PUB") (Or.inl rfl)).1⟩

theorem pathExists_iff {t : Tree} {n : String} :
    pathExists t n ↔ n ∈ treePaths t := by
  unfold pathExists treePaths
  exact List.mem_append.symm

theorem mem_collectCandidates {t : Tree} {base x : String} :
    x ∈ collectCandidates t base ↔
      (pathExists t ("index.html") ∧ x = base ++ "/")
      ∨ (∃ p, p ∈ treePaths t ∧ strEnds p (".html") = true ∧ p ≠ "index.html"
          ∧ x = base ++ "/" ++ p)
      ∨ (∃ n, n ∈ wellKnownNames ∧ pathExists t n ∧ x = base ++ "/" ++ n) := by
  unfold collectCandidates
  constructor
  · intro h
    rcases List.mem_append.mp h with h | h
    · rcases List.mem_append.mp h with h | h
      · left
        split at h
        · rename_i hroot
          exact ⟨hroot, List.mem_singleton.mp h⟩
        · exact absurd h (List.not_mem_nil x)
      · right; left
        obtain ⟨p, hpf, rfl⟩ := List.mem_map.mp h
        have hp := List.mem_filter.mp hpf
        have hand := (Bool.and_eq_true _ _).mp hp.2
        refine ⟨p, hp.1, hand.1, ?_, rfl⟩
        simpa using hand.2
    · right; right
      obtain ⟨n, hnf, rfl⟩ := List.mem_map.mp h
      have hn := List.mem_filter.mp hnf
      exact ⟨n, hn.1, of_decide_eq_true hn.2, rfl⟩
  · intro h
    rcases h with ⟨hroot, rfl⟩ | ⟨p, hp, hh, hi, rfl⟩ | ⟨n, hn, hex, rfl⟩
    · refine List.mem_append.mpr (Or.inl (List.mem_append.mpr (Or.inl ?_)))
      rw [if_pos hroot]
      exact List.mem_singleton.mpr rfl
    · refine List.mem_append.mpr (Or.inl (List.mem_append.mpr (Or.inr ?_)))
      exact List.mem_map.mpr ⟨p, List.mem_filter.mpr ⟨hp, by simp [hh, hi]⟩, rfl⟩
    · refine List.mem_append.mpr (Or.inr ?_)
      exact List.mem_map.mpr ⟨n, List.mem_filter.mpr ⟨hn, decide_eq_true hex⟩, rfl⟩

theorem collect_ext {t1 t2 : Tree} (base : String) (q : List String)
    (hpaths : ∀ x, x ∈ treePaths t1 ↔ x ∈ treePaths t2 ∨ x ∈ q)
    (hq : ∀ e ∈ q, (strEnds e (".html") = false ∧ e ∉ wellKnownNames
          ∧ e ≠ "index.html") ∨ e ∈ treePaths t2) :
    collectInternalPages t1 base = collectInternalPages t2 base := by
  unfold collectInternalPages
  apply sortedSet_ext
  intro x
  rw [mem_collectCandidates, mem_collectCandidates]
  constructor
  · rintro (⟨hroot, rfl⟩ | ⟨p, hp, hh, hi, rfl⟩ | ⟨n, hn, hex2, rfl⟩)
    · left
      refine ⟨?_, rfl⟩
      rw [pathExists_iff] at hroot ⊢
      rcases (hpaths _).mp hroot with h2 | h2
      · exact h2
      · rcases hq _ h2 with ⟨_, _, hne⟩ | h3
        · exact absurd rfl hne
        · exact h3
    · right; left
      rcases (hpaths p).mp hp with h2 | h2
      · exact ⟨p, h2, hh, hi, rfl⟩
      · rcases hq p h2 with ⟨hf, _, _⟩ | h3
        · rw [hh] at hf
          exact Bool.noConfusion hf
        · exact ⟨p, h3, hh, hi, rfl⟩
    · right; right
      rw [pathExists_iff] at hex2
      rcases (hpaths n).mp hex2 with h2 | h2
      · exact ⟨n, hn, pathExists_iff.mpr h2, rfl⟩
      · rcases hq n h2 with ⟨_, hnw, _⟩ | h3
        · exact absurd hn hnw
        · exact ⟨n, hn, pathExists_iff.mpr h3, rfl⟩
  · rintro (⟨hroot, rfl⟩ | ⟨p, hp, hh, hi, rfl⟩ | ⟨n, hn, hex2, rfl⟩)
    · exact Or.inl ⟨pathExists_iff.mpr ((hpaths _).mpr
        (Or.inl (pathExists_iff.mp hroot))), rfl⟩
    · exact Or.inr (Or.inl ⟨p, (hpaths p).mpr (Or.inl hp), hh, hi, rfl⟩)
    · exact Or.inr (Or.inr ⟨n, hn, pathExists_iff.mpr ((hpaths n).mpr
        (Or.inl (pathExists_iff.mp hex2))), rfl⟩)

/-- Claim C5 counterexample: on a fresh tree without sitemap.xml, even with
identical date and build timestamps for both runs, the second run's sitemap
gains a sitemap.xml entry the first lacks: the documents differ in a
non-timestamp field. -/
theorem pipeline_not_idempotent_on_fresh_tree :
    (pipelineRun ⟨"https://e", false, [], false, [], none⟩
        (pipelineRun ⟨"https://e", false, [], false, [], none⟩
          ⟨["index.html"], []⟩ ("D") ("P")).tree ("D") ("P")).sitemap
      ≠ (pipelineRun ⟨"https://e", false, [], false, [], none⟩
          ⟨["index.html"], []⟩ ("D") ("P")).sitemap := by
  decide

/-- Claim C5 (amended): two successive runs with unchanged inputs produce
identical sitemap, feed and robots documents up to timestamp fields provided
the output tree already contains sitemap.xml before the first run — which
holds from the second run onward; on a fresh tree the first run's sitemap
lacks the sitemap.xml self-entry that every later run includes. -/
theorem pipeline_stable_after_first_run (env : Env) (t : Tree) (d p : String)
    (h : "sitemap.xml" ∈ t.files) :
    (pipelineRun env (pipelineRun env t d p).tree d p).sitemap
      = (pipelineRun env t d p).sitemap
    ∧ (pipelineRun env (pipelineRun env t d p).tree d p).robots
      = (pipelineRun env t d p).robots
    ∧ (pipelineRun env (pipelineRun env t d p).tree d p).rssItems
      = (pipelineRun env t d p).rssItems := by
  refine ⟨?_, rfl, rfl⟩
  show sitemapEntries
      ⟨"rss.xml" :: "robots.txt" ::
        (("_redirects" :: "_headers" :: "sitemap.xml" :: "rss.xml" :: "robots.txt"
            :: (t.files ++ copiedTokens env.docsExists env.docsFiles))
          ++ copiedTokens env.docsExists env.docsFiles), t.dirs⟩ env.base d
    = sitemapEntries
      ⟨"rss.xml" :: "robots.txt" ::
          (t.files ++ copiedTokens env.docsExists env.docsFiles), t.dirs⟩ env.base d
  unfold sitemapEntries
  rw [collect_ext env.base (["sitemap.xml", "_redirects", "_headers"]) ?_ ?_]
  · intro x
    simp only [treePaths, List.mem_append, List.mem_cons, List.not_mem_nil, or_false]
    tauto
  · intro e he
    simp only [List.mem_cons, List.not_mem_nil, or_false] at he
    rcases he with rfl | rfl | rfl
    · right
      simp [treePaths, h]
    · left
      refine ⟨by decide, by decide, by decide⟩
    · left
      refine ⟨by decide, by decide, by decide⟩

theorem pipeline_stable_after_first_run_witness :
    ("sitemap.xml" ∈ (⟨["sitemap.xml"], []⟩ : Tree).files)
    ∧ (pipelineRun ⟨"https://e", false, [], false, [], none⟩
        (pipelineRun ⟨"https://e", false, [], false, [], none⟩
          ⟨["sitemap.xml"], []⟩ ("D") ("P")).tree ("D") ("P")).sitemap
      = (pipelineRun ⟨"https://e", false, [], false, [], none⟩
          ⟨["sitemap.xml"], []⟩ ("D") ("P")).sitemap :=
  ⟨by decide,
    (pipeline_stable_after_first_run ⟨"https://e", false, [], false, [], none⟩
      ⟨["sitemap.xml"], []⟩ ("D") ("P") (by decide)).1⟩

/-- Claim C9: every usage error — fewer than two positional arguments, a
missing output directory, or a base URL that does not start with http after
normalization — exits non-zero with a message while the output state is left
unchanged. -/
theorem usage_errors_abort_without_writes (argv : List String) (w : World)
    (d p : String)
    (h : argv.length < 3 ∨ w.outExists = false
      ∨ strStarts (normBaseUrl (argv.getD 2 (""))) ("http") = false) :
    (mainRun argv w d p).1 = w ∧ ∃ msg, (mainRun argv w d p).2 = .error msg := by
  have hgen : ∀ r : World × Except String Unit,
      (∃ msg, r = (w, Except.error msg)) →
        r.1 = w ∧ ∃ msg, r.2 = Except.error msg := by
    rintro r ⟨msg, rfl⟩
    exact ⟨rfl, msg, rfl⟩
  apply hgen
  unfold mainRun
  rcases Nat.lt_or_ge argv.length 3 with h3 | h3
  · rw [if_pos h3]
    exact ⟨_, rfl⟩
  · rw [if_neg (Nat.not_lt.mpr h3)]
    rcases h with h | hout | hbase
    · exact absurd h (Nat.not_lt.mpr h3)
    · rw [hout]
      exact ⟨_, rfl⟩
    · by_cases ho : w.outExists = true
      · rw [ho]
        simp only [hbase]
        exact ⟨_, rfl⟩
      · have ho2 : w.outExists = false := by
          cases hw : w.outExists
          · rfl
          · exact absurd hw ho
        rw [ho2]
        exact ⟨_, rfl⟩

theorem usage_errors_abort_without_writes_witness :
    (["prog"] : List String).length < 3
    ∧ (mainRun ["prog"] ⟨⟨[], []⟩, true, false, [], false, [], none⟩
        ("D") ("P")).1
      = ⟨⟨[], []⟩, true, false, [], false, [], none⟩ :=
  ⟨by decide,
    (usage_errors_abort_without_writes ["prog"]
      ⟨⟨[], []⟩, true, false, [], false, [], none⟩ ("D") ("P")
      (Or.inl (by decide))).1⟩

/-- Claim C10: every file with an .html extension under the output root other
than the root index.html — including google-prefixed verification token files
the token copier places at the root — yields a canonical URL in the
collector's result and hence an entry in the generated sitemap. -/
theorem verification_pages_discoverable :
    (∀ (t : Tree) (base p : String), p ∈ treePaths t →
        strEnds p (".html") = true → p ≠ "index.html" →
        (base ++ "/" ++ p) ∈ collectInternalPages t base)
    ∧ ∀ (env : Env) (t : Tree) (d pub g : String),
        env.docsExists = true → g ∈ env.docsFiles →
        strStarts g ("google") = true → strEnds g (".html") = true →
        (env.base ++ "/" ++ g)
          ∈ (pipelineRun env t d pub).sitemap.map UrlEntry.loc := by
  refine ⟨fun t base p hp hh hi => mem_collect_of_html hp hh hi, ?_⟩
  intro env t d pub g hde hg hgs hge
  have hni : g ≠ "index.html" := by
    intro hgi
    rw [hgi] at hgs
    exact absurd hgs (by decide)
  have htok : g ∈ copiedTokens env.docsExists env.docsFiles := by
    unfold copiedTokens
    rw [if_pos hde]
    exact List.mem_filter.mpr ⟨hg, by simp [hgs, hge]⟩
  show (env.base ++ "/" ++ g)
    ∈ (sitemapEntries
        ⟨"rss.xml" :: "robots.txt" ::
          (t.files ++ copiedTokens env.docsExists env.docsFiles), t.dirs⟩
        env.base d).map UrlEntry.loc
  rw [sitemap_locs]
  refine mem_collect_of_html ?_ hge hni
  unfold treePaths
  refine List.mem_append.mpr (Or.inl ?_)
  exact List.mem_cons_of_mem _ (List.mem_cons_of_mem _
    (List.mem_append.mpr (Or.inr htok)))

theorem verification_pages_discoverable_witness :
    ((⟨"https://e", true, ["google123abc.html"], false, [], none⟩ : Env).docsExists
        = true)
    ∧ ("https://e" ++ "/" ++ "google123abc.html")
      ∈ (pipelineRun ⟨"https://e", true, ["google123abc.html"], false, [], none⟩
          ⟨[], []⟩ ("D") ("P")).sitemap.map UrlEntry.loc :=
  ⟨rfl,
    verification_pages_discoverable.2
      ⟨"https://e", true, ["google123abc.html"], false, [], none⟩ ⟨[], []⟩
      ("D") ("P") ("google123abc.html") rfl (by decide) (by decide) (by decide)⟩

end NetlifyFix
